import Mathlib

/-!
Shallow embedding of the envisim unequal-probability sampling designs
(src/src/unequal.rs) and the Horvitz-Thompson estimators
(src/envisim_estimate/src/horvitz_thompson.rs).

Machine floats (f64) are modelled by exact rationals; a random source is a
stream of uniform variates, modelled as a function from draw position to the
variate, together with an explicit count of consumed variates.  External
collaborators (validation helpers, Poisson sampling, the dense matrix type,
the spatial-index builder) are not part of src/ and are modelled from the
specification where noted.  Rust panics (failed unwrap, usize underflow) are
modelled as a distinguished outcome.
-/

set_option maxRecDepth 8000

namespace Envisim

/-- Sum of a list of rational numbers, the envisim_utils sum fold. -/
def sumQ (l : List ℚ) : ℚ := l.foldl (· + ·) 0

/-- Rounding of a nonnegative rational to the nearest natural number, halves
rounded up; this matches f64 round (half away from zero) followed by the cast
to usize, for the nonnegative probability sums that occur after validation. -/
def roundNat (x : ℚ) : ℕ := (⌊x + 1/2⌋).toNat

/-- Error outcomes of the modelled functions.  The validation constructors
follow the error taxonomy of the specification; maxIterations carries the
configured rejection bound; panicked models a Rust panic (failed unwrap or
usize underflow) as a distinguished non-Ok outcome; treeFailure models a
failure of the spatial-index collaborator. -/
inductive SamplingError where
  | probOutOfRange
  | invalidEps
  | sumNotOne
  | sumNotInteger
  | lengthMismatch
  | sizeMismatch
  | maxIterations (bound : ℕ)
  | treeFailure
  | panicked
deriving DecidableEq

/-- Modelled from the spec: validation collaborator range check, every entry of
a probability vector must lie in the unit interval. -/
def checkProbabilities (l : List ℚ) : Except SamplingError Unit :=
  if ∀ p ∈ l, 0 ≤ p ∧ p ≤ 1 then .ok () else .error .probOutOfRange

/-- Modelled from the spec: the tolerance eps must lie in an acceptable range
of small positive values. -/
def checkEps (eps : ℚ) : Except SamplingError Unit :=
  if 0 < eps ∧ eps < 1/2 then .ok () else .error .invalidEps

/-- Modelled from the spec: check that x equals the target 1 within eps. -/
def checkSumOne (x eps : ℚ) : Except SamplingError Unit :=
  if |x - 1| ≤ eps then .ok () else .error .sumNotOne

/-- Modelled from the spec: check that x is within eps of its nearest integer. -/
def checkSumInteger (x eps : ℚ) : Except SamplingError Unit :=
  if |x - (roundNat x : ℚ)| ≤ eps then .ok () else .error .sumNotInteger

/-- Modelled from the spec: validation collaborator length-equality check. -/
def checkLengths (a b : List ℚ) : Except SamplingError Unit :=
  if a.length = b.length then .ok () else .error .lengthMismatch

/-- Modelled from the spec: validation collaborator dimension check. -/
def checkSizes (a b : ℕ) : Except SamplingError Unit :=
  if a = b then .ok () else .error .sizeMismatch

/-- Result chaining as in Rust and: the first error wins, otherwise the second
result is returned. -/
def andE (a b : Except SamplingError Unit) : Except SamplingError Unit :=
  match a with
  | .error e => .error e
  | .ok _ => b

/-- Modelled from the spec: the sampling options bundle of probabilities, the
tolerance eps and the rejection-loop bound max_iterations. -/
structure SampleOptions where
  probabilities : List ℚ
  eps : ℚ
  maxIterations : ℕ

/-- Accumulator loop of draw: index i, running sum psum, remaining
probabilities; returns the first index whose cumulative sum reaches rv,
and the fallback when the list is exhausted. -/
def drawGo (rv : ℚ) (fallback : ℕ) : ℕ → ℚ → List ℚ → ℕ
  | _, _, [] => fallback
  | i, psum, p :: rest =>
    if rv ≤ psum + p then i else drawGo rv fallback (i + 1) (psum + p) rest

/-- Weighted single draw from src/src/unequal.rs: scan the cumulative sums of
the probabilities and return the first index at which the drawn variate rv is
reached, with the last index as deterministic fallback. -/
def draw (rv : ℚ) (probabilities : List ℚ) : ℕ :=
  drawGo rv (probabilities.length - 1) 0 0 probabilities

/-- Merged pass of with_replacement over the enumerated probabilities and the
sorted uniform variates: advance one probability when the cumulative mass stays
at or below the current variate, otherwise emit the current index and advance
to the next variate; remaining variates are dropped when the probabilities run
out, remaining probabilities are dropped when the variates run out. -/
def mergePass : List (ℕ × ℚ) → ℚ → ℚ → List ℚ → List ℕ
  | [], _, _, _ => []
  | (id, p) :: rest, psum, rv, rvs =>
    if psum + p ≤ rv then
      mergePass rest (psum + p) rv rvs
    else
      match rvs with
      | [] => [id]
      | rv2 :: rvs2 => id :: mergePass ((id, p) :: rest) psum rv2 rvs2
termination_by ids _ _ rvs => ids.length + rvs.length

/-- Validation chain of with_replacement: probabilities in range, then the
probability sum approximately 1. -/
def wrValidate (o : SampleOptions) : Except SamplingError Unit :=
  andE (checkProbabilities o.probabilities) (checkSumOne (sumQ o.probabilities) o.eps)

/-- with_replacement from src/src/unequal.rs: validate, short-circuit n = 0,
draw n uniforms, sort them ascending and run the merged pass.  The second
component of the result is the number of consumed random variates. -/
def withReplacement (u : ℕ → ℚ) (o : SampleOptions) (n : ℕ) :
    Except SamplingError (List ℕ) × ℕ :=
  match wrValidate o with
  | .error e => (.error e, 0)
  | .ok _ =>
    if n = 0 then (.ok [], 0)
    else
      match ((List.range n).map u).insertionSort (· ≤ ·) with
      | [] => (.error .panicked, n)
      | rv :: rvs => (.ok (mergePass o.probabilities.enum 0 rv rvs), n)

/-- Shared validation chain of the without-replacement designs: probabilities
in range, then eps in range, then the probability sum approximately integer. -/
def designValidate (o : SampleOptions) : Except SamplingError Unit :=
  andE (checkProbabilities o.probabilities)
    (andE (checkEps o.eps) (checkSumInteger (sumQ o.probabilities) o.eps))

/-- Per-unit loop of the Poisson collaborator: unit i is included exactly when
its uniform variate falls below its probability. -/
def poissonGo (u : ℕ → ℚ) (start : ℕ) : ℕ → List ℚ → List ℕ
  | _, [] => []
  | i, p :: rest =>
    if u (start + i) < p then i :: poissonGo u start (i + 1) rest
    else poissonGo u start (i + 1) rest

/-- Modelled from the spec: the Poisson-sampling collaborator
poisson::internal, which is not part of src/.  It consumes one uniform variate
per unit and returns the ascending duplicate-free list of units whose variate
is below their (unnormalized) inclusion probability. -/
def poissonInternal (u : ℕ → ℚ) (start : ℕ) (probs : List ℚ) : List ℕ :=
  poissonGo u start 0 probs

/-- Rejection loop of sampford: each attempt draws a Poisson sample, retries
unless its size is the target minus one, then draws the extra unit a from the
normalized probabilities and accepts exactly when the first Poisson unit with
id at least a exists and differs from a. -/
def sampfordLoop (u : ℕ → ℚ) (probs normProbs : List ℚ) (m maxIter : ℕ) :
    ℕ → ℕ → Except SamplingError (List ℕ) × ℕ
  | 0, pos => (.error (.maxIterations maxIter), pos)
  | fuel + 1, pos =>
    let sample := poissonInternal u pos probs
    let pos2 := pos + probs.length
    if sample.length = m - 1 then
      let a := draw (u pos2) normProbs
      match sample.find? (fun x => a ≤ x) with
      | some id =>
        if id ≠ a then ((.ok ((sample ++ [a]).insertionSort (· ≤ ·))), pos2 + 1)
        else sampfordLoop u probs normProbs m maxIter fuel (pos2 + 1)
      | none => sampfordLoop u probs normProbs m maxIter fuel (pos2 + 1)
    else sampfordLoop u probs normProbs m maxIter fuel pos2

/-- sampford from src/src/unequal.rs: validate, special-case sample sizes 0 and
1, otherwise run the rejection loop up to max_iterations attempts.  The second
component of the result is the number of consumed random variates. -/
def sampford (u : ℕ → ℚ) (o : SampleOptions) : Except SamplingError (List ℕ) × ℕ :=
  match designValidate o with
  | .error e => (.error e, 0)
  | .ok _ =>
    let probs := o.probabilities
    let psum := sumQ probs
    let m := roundNat psum
    if m = 0 then (.ok [], 0)
    else if m = 1 then (.ok [draw (u 0) probs], 1)
    else
      let normProbs := probs.map (· / psum)
      sampfordLoop u probs normProbs m o.maxIterations o.maxIterations 0

/-- Value of a pareto ranking key: a finite rational or the f64 infinity that
the source assigns to guarded units. -/
inductive ParetoKey where
  | finite (q : ℚ)
  | infinite
deriving DecidableEq

/-- Order on pareto keys as f64 comparison: infinity is at least everything,
finite keys compare as rationals. -/
def ParetoKey.le : ParetoKey → ParetoKey → Prop
  | .finite _, .infinite => True
  | .infinite, .infinite => True
  | .infinite, .finite _ => False
  | .finite a, .finite b => a ≤ b

instance : DecidableRel ParetoKey.le := fun a b =>
  match a, b with
  | .finite _, .infinite => .isTrue trivial
  | .infinite, .infinite => .isTrue trivial
  | .infinite, .finite _ => .isFalse fun h => h
  | .finite x, .finite y => inferInstanceAs (Decidable (x ≤ y))

/-- Ranking key of the pareto design: units with a variate above 1 - eps or a
probability below eps get key infinity, otherwise the key is
u(1-p) / (p(1-u)).  The NaN remap of the source is unreachable in exact
arithmetic since after the guard the denominator is positive. -/
def paretoKey (eps u p : ℚ) : ParetoKey :=
  if 1 - eps < u ∨ p < eps then .infinite
  else .finite ((u * (1 - p)) / (p * (1 - u)))

/-- pareto from src/src/unequal.rs: validate, compute one ranking key per unit
from one uniform variate each, stably sort all unit ids by key and keep the
first round(sum) of them.  The second component is the number of consumed
random variates. -/
def pareto (u : ℕ → ℚ) (o : SampleOptions) : Except SamplingError (List ℕ) × ℕ :=
  match designValidate o with
  | .error e => (.error e, 0)
  | .ok _ =>
    let probs := o.probabilities
    let m := roundNat (sumQ probs)
    let n := probs.length
    let qvals : List ParetoKey :=
      (List.range n).map fun i => paretoKey o.eps (u i) (probs.getD i 0)
    let sample :=
      (List.range n).insertionSort
        (fun a b => ParetoKey.le (qvals.getD a .infinite) (qvals.getD b .infinite))
    (.ok (sample.take m), n)

/-- Pre-pass of brewer over the enumerated probabilities: units with
probability at most eps are removed from eligibility, units with probability
at least 1 - eps are removed, forced into the sample, and decrement both the
remaining mass and the remaining sample size.  A usize underflow of the
remaining sample size and a failing Indices removal are modelled as a panic
(none). -/
def brewerPrePass (eps : ℚ) :
    List (ℕ × ℚ) → List ℕ → List ℕ → ℚ → ℕ → Option (List ℕ × List ℕ × ℚ × ℕ)
  | [], indices, sample, nd, size => some (indices, sample, nd, size)
  | (id, p) :: rest, indices, sample, nd, size =>
    if p ≤ eps then
      if id ∈ indices then brewerPrePass eps rest (indices.erase id) sample nd size
      else none
    else if 1 - eps ≤ p then
      if id ∈ indices then
        match size with
        | 0 => none
        | size2 + 1 =>
          brewerPrePass eps rest (indices.erase id) (sample ++ [id]) (nd - 1) size2
      else none
    else brewerPrePass eps rest indices sample nd size

/-- Main loop of brewer, with fuel the number of draws still to make: rebuild
the conditional probability vector over the currently eligible units with the
Brewer formula (zero outside eligibility), normalize it, perform a weighted
draw, remove the drawn unit from eligibility and push it.  Drawing a unit that
is not eligible makes the Indices removal fail, modelled as a panic (none). -/
def brewerLoop (u : ℕ → ℚ) (probs : List ℚ) :
    ℕ → ℚ → List ℕ → List ℕ → ℕ → Option (List ℕ × ℕ)
  | 0, _, _, sample, pos => some (sample, pos)
  | r + 1, nd, indices, sample, pos =>
    let n := probs.length
    let qRaw : List ℚ := (List.range n).map fun id =>
      if id ∈ indices then
        let p := probs.getD id 0
        p * (nd - p) / (nd - p * ((r : ℚ) + 2))
      else 0
    let s := sumQ qRaw
    let qProbs := qRaw.map (· / s)
    let a := draw (u pos) qProbs
    if a ∈ indices then
      brewerLoop u probs r (nd - probs.getD a 0) (indices.erase a)
        (sample ++ [a]) (pos + 1)
    else none

/-- brewer from src/src/unequal.rs: validate, run the pre-pass that excludes
negligible units and forces near-certain units, then draw the remaining units
sequentially with the Brewer conditional probabilities, and sort the sample
ascending.  The second component is the number of consumed random variates. -/
def brewer (u : ℕ → ℚ) (o : SampleOptions) : Except SamplingError (List ℕ) × ℕ :=
  match designValidate o with
  | .error e => (.error e, 0)
  | .ok _ =>
    let probs := o.probabilities
    let psum := sumQ probs
    let m := roundNat psum
    match brewerPrePass o.eps probs.enum (List.range probs.length) [] psum m with
    | none => (.error .panicked, 0)
    | some (indices, sample0, nd, size) =>
      match brewerLoop u probs size nd indices sample0 0 with
      | none => (.error .panicked, 0)
      | some (sample, pos) => (.ok (sample.insertionSort (· ≤ ·)), pos)

/-- Modelled from the spec: the dense matrix collaborator holding second-order
inclusion probabilities; row-major data with entry (i,j) at data[i * ncol + j]. -/
structure MatrixQ where
  nrow : ℕ
  ncol : ℕ
  data : List ℚ

/-- Entry access of the matrix collaborator. -/
def MatrixQ.get (M : MatrixQ) (i j : ℕ) : ℚ := M.data.getD (i * M.ncol + j) 0

/-- estimate from src/envisim_estimate/src/horvitz_thompson.rs: validate the
lengths and the probabilities, then fold the sum of y/p left to right. -/
def estimate (y p : List ℚ) : Except SamplingError ℚ :=
  match andE (checkLengths y p) (checkProbabilities p) with
  | .error e => .error e
  | .ok _ => .ok ((y.zip p).foldl (fun acc yp => acc + yp.1 / yp.2) 0)

/-- Validation chain shared by variance and syg_variance: lengths, both matrix
dimensions, first-order probabilities, matrix entries. -/
def varValidate (y p : List ℚ) (M : MatrixQ) : Except SamplingError Unit :=
  andE (checkLengths y p)
    (andE (checkSizes y.length M.nrow)
      (andE (checkSizes y.length M.ncol)
        (andE (checkProbabilities p) (checkProbabilities M.data))))

/-- variance from src/envisim_estimate/src/horvitz_thompson.rs: the
Horvitz-Thompson variance estimator, a double loop accumulating
(y_i/p_i)^2 (1-p_i) plus the doubled upper-triangle cross terms. -/
def variance (y p : List ℚ) (M : MatrixQ) : Except SamplingError ℚ :=
  match varValidate y p M with
  | .error e => .error e
  | .ok _ =>
    let n := y.length
    let c := fun i => y.getD i 0 / p.getD i 0
    .ok (∑ i in Finset.range n,
      ((c i)^2 * (1 - p.getD i 0) +
        ∑ j in Finset.Ico (i + 1) n,
          2 * c i * c j * (1 - p.getD i 0 * p.getD j 0 / M.get i j)))

/-- syg_variance from src/envisim_estimate/src/horvitz_thompson.rs: the
Sen-Yates-Grundy variance estimator, accumulating the negated squared
differences over the upper triangle. -/
def sygVariance (y p : List ℚ) (M : MatrixQ) : Except SamplingError ℚ :=
  match varValidate y p M with
  | .error e => .error e
  | .ok _ =>
    let n := y.length
    let c := fun i => y.getD i 0 / p.getD i 0
    .ok (-∑ i in Finset.range n,
      ∑ j in Finset.Ico (i + 1) n,
        (c i - c j)^2 * (1 - p.getD i 0 * p.getD j 0 / M.get i j))

/-- deville_variance from src/envisim_estimate/src/horvitz_thompson.rs:
validate, then compute the deviation sum around the quantity s1mp/del (the
source folds exactly these accumulators) scaled by 1/(1-sak2). -/
def devilleVariance (y p : List ℚ) : Except SamplingError ℚ :=
  match andE (checkLengths y p) (checkProbabilities p) with
  | .error e => .error e
  | .ok _ =>
    let ypi := (y.zip p).map fun v => v.1 / v.2
    let q := p.map (fun v => 1 - v)
    let s1mp := sumQ q
    let del := (ypi.zip q).foldl (fun acc ab => acc + ab.1 * ab.2) 0
    let s1mpDel := s1mp / del
    let sak2 := (q.foldl (fun acc a => acc + a^2) 0) / s1mp^2
    let dsum := (ypi.zip q).foldl (fun acc ab => acc + (ab.1 - s1mpDel)^2 * ab.2) 0
    .ok (1 / (1 - sak2) * dsum)

/-- Formula asserted by the specification for the Deville variance: the
weighted (weights 1-p) sum of squared deviations of y/p around the
probability-weighted mean of the y/p, scaled by the correction factor
1 / (1 - sum((1-p)^2)/(sum(1-p))^2). -/
def devilleSpecFormula (y p : List ℚ) : ℚ :=
  let ypi := (y.zip p).map fun v => v.1 / v.2
  let q := p.map (fun v => 1 - v)
  let s1mp := sumQ q
  let mean := ((ypi.zip q).foldl (fun acc ab => acc + ab.1 * ab.2) 0) / s1mp
  let sak2 := (q.foldl (fun acc a => acc + a^2) 0) / s1mp^2
  1 / (1 - sak2) * ((ypi.zip q).foldl (fun acc ab => acc + (ab.1 - mean)^2 * ab.2) 0)

/-- Modelled from the spec: the spatial-index collaborator, reduced to what
local_mean_variance consumes after building: the row count of the coordinate
data and, for each queried unit, its list of neighbour ids (including the unit
itself), whose size reflects the configured neighbour count. -/
structure KdTree where
  dataNrow : ℕ
  neighbours : ℕ → List ℕ

/-- local_mean_variance from src/envisim_estimate/src/horvitz_thompson.rs:
the spatial index is built before validation runs, mirroring the order of
operations of the source, with the caller-supplied builder modelled by its
outcome; afterwards the neighbour means accumulate the variance. -/
def localMeanVariance (y p : List ℚ) (builder : Except SamplingError KdTree) :
    Except SamplingError ℚ :=
  match builder with
  | .error e => .error e
  | .ok tree =>
    match andE (checkLengths y p)
        (andE (checkSizes y.length tree.dataNrow) (checkProbabilities p)) with
    | .error e => .error e
    | .ok _ =>
      let yp := (y.zip p).map fun v => v.1 / v.2
      let n := y.length
      .ok (∑ i in Finset.range n,
        (((tree.neighbours i).length : ℚ) / (((tree.neighbours i).length : ℚ) - 1)) *
          (((tree.neighbours i).foldl (fun acc id => acc + yp.getD id 0) 0) /
            ((tree.neighbours i).length : ℚ))^2)

/-! Lemmas about the merged pass of with_replacement. -/

theorem sumQ_eq_sum (l : List ℚ) : sumQ l = l.sum := by
  rw [List.sum_eq_foldl]; rfl

theorem mergePass_length_le (ids : List (ℕ × ℚ)) (psum rv : ℚ) (rvs : List ℚ) :
    (mergePass ids psum rv rvs).length ≤ rvs.length + 1 := by
  induction ids, psum, rv, rvs using mergePass.induct with
  | case1 psum rv rvs => simp [mergePass]
  | case2 id p rest psum rv rvs h ih =>
    rw [mergePass.eq_def]; simp only [if_pos h]; exact ih
  | case3 id p rest psum rv h =>
    rw [mergePass, if_neg h]; simp
  | case4 id p rest psum rv h rv2 rvs2 ih =>
    rw [mergePass.eq_def]; simp only [if_neg h]
    simpa using Nat.succ_le_succ ih

theorem mergePass_mem (ids : List (ℕ × ℚ)) (psum rv : ℚ) (rvs : List ℚ) :
    ∀ x ∈ mergePass ids psum rv rvs, ∃ p, (x, p) ∈ ids := by
  induction ids, psum, rv, rvs using mergePass.induct with
  | case1 psum rv rvs => simp [mergePass]
  | case2 id p rest psum rv rvs h ih =>
    rw [mergePass.eq_def]; simp only [if_pos h]
    intro x hx
    obtain ⟨q, hq⟩ := ih x hx
    exact ⟨q, List.mem_cons_of_mem _ hq⟩
  | case3 id p rest psum rv h =>
    rw [mergePass.eq_def]; simp only [if_neg h]
    intro x hx
    simp at hx
    exact ⟨p, by simp [hx]⟩
  | case4 id p rest psum rv h rv2 rvs2 ih =>
    rw [mergePass.eq_def]; simp only [if_neg h]
    intro x hx
    rcases List.mem_cons.1 hx with hx | hx
    · exact ⟨p, by simp [hx]⟩
    · exact ih x hx

theorem mergePass_sorted (ids : List (ℕ × ℚ)) (psum rv : ℚ) (rvs : List ℚ)
    (h : List.Sorted (· ≤ ·) (ids.map Prod.fst)) :
    List.Sorted (· ≤ ·) (mergePass ids psum rv rvs) := by
  induction ids, psum, rv, rvs using mergePass.induct with
  | case1 psum rv rvs => simp [mergePass]
  | case2 id p rest psum rv rvs hc ih =>
    rw [mergePass.eq_def]; simp only [if_pos hc]
    exact ih (by simpa using h.of_cons)
  | case3 id p rest psum rv hc =>
    rw [mergePass.eq_def]; simp only [if_neg hc]
    simp
  | case4 id p rest psum rv hc rv2 rvs2 ih =>
    rw [mergePass.eq_def]; simp only [if_neg hc]
    refine List.sorted_cons.2 ⟨?_, ih h⟩
    intro b hb
    obtain ⟨q, hq⟩ := mergePass_mem _ _ _ _ b hb
    have hb2 : b ∈ ((id, p) :: rest).map Prod.fst := by
      exact List.mem_map.2 ⟨(b, q), hq, rfl⟩
    simp only [List.map_cons] at hb2
    rcases List.mem_cons.1 hb2 with hb2 | hb2
    · exact le_of_eq hb2.symm
    · exact (List.sorted_cons.1 (by simpa using h)).1 b hb2

theorem mergePass_length_eq (ids : List (ℕ × ℚ)) (psum rv : ℚ) (rvs : List ℚ) :
    (∀ r ∈ rv :: rvs, r < psum + (ids.map Prod.snd).sum) → psum ≤ rv →
      List.Sorted (· ≤ ·) (rv :: rvs) →
      (mergePass ids psum rv rvs).length = rvs.length + 1 := by
  induction ids, psum, rv, rvs using mergePass.induct with
  | case1 psum rv rvs =>
    intro hlt hps _
    have := hlt rv (by simp)
    simp only [List.map_nil, List.sum_nil, add_zero] at this
    exact absurd this (not_lt.2 hps)
  | case2 id p rest psum rv rvs hc ih =>
    intro hlt hps hsort
    rw [mergePass.eq_def]; simp only [if_pos hc]
    refine ih ?_ hc hsort
    intro r hr
    have := hlt r hr
    simpa [add_assoc] using this
  | case3 id p rest psum rv hc =>
    intro _ _ _
    rw [mergePass.eq_def]; simp only [if_neg hc]
    simp
  | case4 id p rest psum rv hc rv2 rvs2 ih =>
    intro hlt hps hsort
    rw [mergePass.eq_def]; simp only [if_neg hc]
    have hlen : (mergePass ((id, p) :: rest) psum rv2 rvs2).length = rvs2.length + 1 := by
      refine ih ?_ ?_ hsort.of_cons
      · intro r hr
        exact hlt r (List.mem_cons_of_mem _ hr)
      · exact le_trans hps ((List.sorted_cons.1 hsort).1 rv2 (by simp))
    simp [hlen]


/-! Validation chains characterized by their input conditions. -/

theorem wrValidate_eq_ok (o : SampleOptions)
    (hp : ∀ p ∈ o.probabilities, 0 ≤ p ∧ p ≤ 1)
    (hsum : |sumQ o.probabilities - 1| ≤ o.eps) : wrValidate o = .ok () := by
  unfold wrValidate andE checkProbabilities checkSumOne
  rw [if_pos hp, if_pos hsum]

theorem designValidate_eq_ok (o : SampleOptions)
    (hp : ∀ p ∈ o.probabilities, 0 ≤ p ∧ p ≤ 1)
    (he : 0 < o.eps ∧ o.eps < 1/2)
    (hsum : |sumQ o.probabilities - (roundNat (sumQ o.probabilities) : ℚ)| ≤ o.eps) :
    designValidate o = .ok () := by
  unfold designValidate andE checkProbabilities checkEps checkSumInteger
  rw [if_pos hp, if_pos he, if_pos hsum]

theorem designValidate_ok_probs (o : SampleOptions)
    (h : designValidate o = .ok ()) : ∀ p ∈ o.probabilities, 0 ≤ p ∧ p ≤ 1 := by
  unfold designValidate andE checkProbabilities checkEps checkSumInteger at h
  by_cases hp : ∀ p ∈ o.probabilities, 0 ≤ p ∧ p ≤ 1
  · exact hp
  · rw [if_neg hp] at h; exact absurd h (by simp)

/-! The with_replacement wrapper on validated input. -/

theorem withReplacement_run (u : ℕ → ℚ) (o : SampleOptions) (n : ℕ)
    (hval : wrValidate o = .ok ()) (hn : n ≠ 0) :
    ∃ rv rvs, ((List.range n).map u).insertionSort (· ≤ ·) = rv :: rvs ∧
      withReplacement u o n = (.ok (mergePass o.probabilities.enum 0 rv rvs), n) := by
  have hlen : (((List.range n).map u).insertionSort (· ≤ ·)).length = n := by
    rw [(List.perm_insertionSort _ _).length_eq]; simp
  cases hs : ((List.range n).map u).insertionSort (· ≤ ·) with
  | nil => rw [hs] at hlen; simp at hlen; exact absurd hlen.symm hn
  | cons rv rvs =>
    refine ⟨rv, rvs, rfl, ?_⟩
    unfold withReplacement
    rw [hval, if_neg hn, hs]

theorem enum_eq_enumFrom (l : List ℚ) : l.enum = List.enumFrom 0 l := rfl

/-- Core property bundle for with_replacement on validated input: the result is
Ok, at most n indices are returned, all below the population size, exactly n of
them whenever every drawn variate stays below the total probability mass, and
n = 0 yields the empty sample. -/
theorem withReplacement_ok_props (u : ℕ → ℚ) (o : SampleOptions) (n : ℕ)
    (hp : ∀ p ∈ o.probabilities, 0 ≤ p ∧ p ≤ 1)
    (hsum : |sumQ o.probabilities - 1| ≤ o.eps)
    (hu : ∀ i < n, 0 ≤ u i) :
    ∃ s, (withReplacement u o n).1 = .ok s ∧ s.length ≤ n ∧
      (∀ x ∈ s, x < o.probabilities.length) ∧
      ((∀ i < n, u i < sumQ o.probabilities) → s.length = n) ∧
      (n = 0 → s = []) := by
  have hval := wrValidate_eq_ok o hp hsum
  by_cases hn : n = 0
  · refine ⟨[], ?_, by simp [hn], by simp, by simp [hn], fun _ => rfl⟩
    unfold withReplacement
    rw [hval, if_pos hn]
  · obtain ⟨rv, rvs, hs, hwr⟩ := withReplacement_run u o n hval hn
    have hsortlen : (rv :: rvs).length = n := by
      rw [← hs, (List.perm_insertionSort _ _).length_eq]; simp
    have hmem_rvs : ∀ r ∈ rv :: rvs, ∃ i, i < n ∧ r = u i := by
      intro r hr
      rw [← hs] at hr
      have hr2 : r ∈ (List.range n).map u := (List.perm_insertionSort _ _).mem_iff.1 hr
      obtain ⟨i, hi, rfl⟩ := List.mem_map.1 hr2
      exact ⟨i, List.mem_range.1 hi, rfl⟩
    refine ⟨mergePass o.probabilities.enum 0 rv rvs, by rw [hwr], ?_, ?_, ?_,
      fun h0 => absurd h0 hn⟩
    · have := mergePass_length_le o.probabilities.enum 0 rv rvs
      simp at hsortlen; omega
    · intro x hx
      obtain ⟨q, hq⟩ := mergePass_mem _ _ _ _ x hx
      rw [enum_eq_enumFrom] at hq
      have := List.mem_enumFrom hq
      simpa using this.2.1
    · intro hlt
      have hlen := mergePass_length_eq o.probabilities.enum 0 rv rvs ?_ ?_ ?_
      · simp at hsortlen; omega
      · intro r hr
        obtain ⟨i, hi, rfl⟩ := hmem_rvs r hr
        have : (o.probabilities.enum.map Prod.snd).sum = sumQ o.probabilities := by
          rw [enum_eq_enumFrom, List.enumFrom_map_snd, ← sumQ_eq_sum]
        rw [this, zero_add]
        exact hlt i hi
      · obtain ⟨i, hi, hr⟩ := hmem_rvs rv (by simp)
        rw [hr]
        exact hu i hi
      · rw [← hs]
        exact List.sorted_insertionSort _ _

/-- Any Ok output of with_replacement is a non-decreasing index sequence,
whatever the validity of the inputs or the stream. -/
theorem withReplacement_ok_sorted (u : ℕ → ℚ) (o : SampleOptions) (n : ℕ)
    (s : List ℕ) (c : ℕ) (h : withReplacement u o n = (.ok s, c)) :
    List.Sorted (· ≤ ·) s := by
  unfold withReplacement at h
  cases hval : wrValidate o with
  | error e => rw [hval] at h; simp at h
  | ok a =>
    rw [hval] at h
    by_cases hn : n = 0
    · rw [if_pos hn] at h
      simp only [Prod.mk.injEq] at h
      obtain ⟨h1, -⟩ := h
      obtain rfl : s = [] := by
        cases h1s : s with
        | nil => rfl
        | cons x xs => rw [h1s] at h1; exact absurd h1 (by simp)
      simp
    · rw [if_neg hn] at h
      cases hs : ((List.range n).map u).insertionSort (· ≤ ·) with
      | nil => rw [hs] at h; simp at h
      | cons rv rvs =>
        rw [hs] at h
        simp only [Prod.mk.injEq, Except.ok.injEq] at h
        obtain ⟨rfl, -⟩ := h.imp (fun h1 => h1.symm) id
        apply mergePass_sorted
        have : (o.probabilities.enum.map Prod.fst) = List.range o.probabilities.length :=
          List.enum_map_fst _
        rw [this]
        exact List.sorted_le_range _

/-! The Poisson collaborator model, draw bounds, and the sampford loop. -/

theorem poissonGo_mem (u : ℕ → ℚ) (start : ℕ) :
    ∀ (l : List ℚ) (i : ℕ), ∀ x ∈ poissonGo u start i l, i ≤ x ∧ x < i + l.length := by
  intro l
  induction l with
  | nil => intro i x hx; simp [poissonGo] at hx
  | cons p rest ih =>
    intro i x hx
    rw [poissonGo] at hx
    by_cases hc : u (start + i) < p
    · rw [if_pos hc] at hx
      rcases List.mem_cons.1 hx with rfl | hx
      · simp
      · have := ih (i + 1) x hx
        constructor
        · omega
        · simp only [List.length_cons]; omega
    · rw [if_neg hc] at hx
      have := ih (i + 1) x hx
      constructor
      · omega
      · simp only [List.length_cons]; omega

theorem poissonGo_sorted (u : ℕ → ℚ) (start : ℕ) :
    ∀ (l : List ℚ) (i : ℕ), List.Sorted (· < ·) (poissonGo u start i l) := by
  intro l
  induction l with
  | nil => intro i; simp [poissonGo]
  | cons p rest ih =>
    intro i
    rw [poissonGo]
    by_cases hc : u (start + i) < p
    · rw [if_pos hc]
      refine List.sorted_cons.2 ⟨?_, ih (i + 1)⟩
      intro b hb
      have := (poissonGo_mem u start rest (i + 1) b hb).1
      omega
    · rw [if_neg hc]
      exact ih (i + 1)

theorem find_ge_not_mem (a b : ℕ) :
    ∀ l : List ℕ, List.Sorted (· ≤ ·) l →
      l.find? (fun x => a ≤ x) = some b → b ≠ a → a ∉ l := by
  intro l
  induction l with
  | nil => simp
  | cons x xs ih =>
    intro hs hf hne
    by_cases hx : a ≤ x
    · rw [List.find?_cons_of_pos _ (by simpa using hx)] at hf
      have hbx : b = x := by simpa using hf.symm
      have hax : a < x := lt_of_le_of_ne hx (by rw [← hbx]; exact fun hc => hne hc.symm)
      intro hmem
      rcases List.mem_cons.1 hmem with rfl | hmem
      · exact absurd rfl (ne_of_lt hax)
      · exact absurd ((List.sorted_cons.1 hs).1 a hmem) (not_le.2 hax)
    · rw [List.find?_cons_of_neg _ (by simpa using hx)] at hf
      intro hmem
      rcases List.mem_cons.1 hmem with rfl | hmem
      · exact hx le_rfl
      · exact ih hs.of_cons hf hne hmem

theorem drawGo_bound (rv : ℚ) (fb : ℕ) :
    ∀ (l : List ℚ) (i : ℕ) (psum : ℚ),
      drawGo rv fb i psum l = fb ∨
        (i ≤ drawGo rv fb i psum l ∧ drawGo rv fb i psum l < i + l.length) := by
  intro l
  induction l with
  | nil => intro i psum; left; rfl
  | cons p rest ih =>
    intro i psum
    by_cases hc : rv ≤ psum + p
    · right
      rw [drawGo, if_pos hc]
      simp only [List.length_cons]
      omega
    · rw [drawGo, if_neg hc]
      rcases ih (i + 1) (psum + p) with h | ⟨h1, h2⟩
      · exact Or.inl h
      · right
        simp only [List.length_cons]
        omega

theorem draw_lt_length (rv : ℚ) (l : List ℚ) (hl : l ≠ []) : draw rv l < l.length := by
  have hpos : 0 < l.length := List.length_pos.2 hl
  unfold draw
  rcases drawGo_bound rv (l.length - 1) l 0 0 with h | ⟨-, h2⟩
  · rw [h]; omega
  · simpa using h2

theorem sampfordLoop_ok (u : ℕ → ℚ) (probs normProbs : List ℚ) (m maxIter : ℕ)
    (hm : 2 ≤ m) (hnp : normProbs.length = probs.length) :
    ∀ (fuel pos : ℕ) (s : List ℕ) (c : ℕ),
      sampfordLoop u probs normProbs m maxIter fuel pos = (.ok s, c) →
      List.Sorted (· < ·) s ∧ s.Nodup ∧ s.length = m ∧ ∀ x ∈ s, x < probs.length := by
  intro fuel
  induction fuel with
  | zero => intro pos s c h; rw [sampfordLoop] at h; simp at h
  | succ fuel ih =>
    intro pos s c h
    rw [sampfordLoop] at h
    simp only [] at h
    by_cases hlen : (poissonInternal u pos probs).length = m - 1
    swap
    · rw [if_neg hlen] at h; exact ih _ _ _ h
    rw [if_pos hlen] at h
    cases hf : (poissonInternal u pos probs).find?
        (fun x => draw (u (pos + probs.length)) normProbs ≤ x) with
    | none => rw [hf] at h; exact ih _ _ _ h
    | some id =>
      rw [hf] at h
      simp only [] at h
      by_cases hid : id ≠ draw (u (pos + probs.length)) normProbs
      swap
      · rw [if_neg hid] at h; exact ih _ _ _ h
      rw [if_pos hid] at h
      simp only [Prod.mk.injEq, Except.ok.injEq] at h
      obtain ⟨rfl, -⟩ : s = _ ∧ _ := ⟨h.1.symm, h.2⟩
      have hsort : List.Sorted (· < ·) (poissonInternal u pos probs) :=
        poissonGo_sorted u pos probs 0
      have hmem : ∀ x ∈ poissonInternal u pos probs, x < probs.length := by
        intro x hx
        simpa using (poissonGo_mem u pos probs 0 x hx).2
      have hnotmem : draw (u (pos + probs.length)) normProbs ∉ poissonInternal u pos probs :=
        find_ge_not_mem _ id _ (hsort.imp (fun hab => le_of_lt hab)) hf
          (fun hc => hid (by rw [hc]))
      have hndsample : (poissonInternal u pos probs).Nodup :=
        hsort.imp (fun hab => ne_of_lt hab)
      have hnonempty : poissonInternal u pos probs ≠ [] := by
        intro hnil
        rw [hnil] at hlen
        simp at hlen
        omega
      have hplen : 0 < probs.length := by
        rcases List.exists_mem_of_ne_nil _ hnonempty with ⟨x, hx⟩
        exact lt_of_le_of_lt (Nat.zero_le x) (hmem x hx)
      have hdrawlt : draw (u (pos + probs.length)) normProbs < probs.length := by
        rw [← hnp]
        exact draw_lt_length _ _ (by rw [← List.length_pos, hnp]; exact hplen)
      have hnd : (poissonInternal u pos probs ++
          [draw (u (pos + probs.length)) normProbs]).Nodup := by
        rw [List.nodup_append]
        exact ⟨hndsample, List.nodup_singleton _, by simpa using hnotmem⟩
      have hperm := List.perm_insertionSort (· ≤ ·)
        (poissonInternal u pos probs ++ [draw (u (pos + probs.length)) normProbs])
      have hsle := List.sorted_insertionSort (· ≤ ·)
        (poissonInternal u pos probs ++ [draw (u (pos + probs.length)) normProbs])
      have hndout := (hperm.nodup_iff).2 hnd
      refine ⟨hsle.lt_of_le hndout, hndout, ?_, ?_⟩
      · rw [hperm.length_eq]
        simp only [List.length_append, List.length_singleton, hlen]
        omega
      · intro x hx
        have hx2 := hperm.mem_iff.1 hx
        rcases List.mem_append.1 hx2 with hx2 | hx2
        · exact hmem x hx2
        · rw [List.mem_singleton.1 hx2]
          exact hdrawlt

theorem sampfordLoop_shape (u : ℕ → ℚ) (probs normProbs : List ℚ) (m maxIter : ℕ) :
    ∀ (fuel pos : ℕ),
      (∃ s c, sampfordLoop u probs normProbs m maxIter fuel pos = (.ok s, c)) ∨
        ∃ c, sampfordLoop u probs normProbs m maxIter fuel pos =
          (.error (.maxIterations maxIter), c) := by
  intro fuel
  induction fuel with
  | zero => intro pos; right; exact ⟨pos, by rw [sampfordLoop]⟩
  | succ fuel ih =>
    intro pos
    by_cases hlen : (poissonInternal u pos probs).length = m - 1
    · cases hf : (poissonInternal u pos probs).find?
          (fun x => draw (u (pos + probs.length)) normProbs ≤ x) with
      | none =>
        rcases ih (pos + probs.length + 1) with ⟨s, c, hrec⟩ | ⟨c, hrec⟩
        · left; exact ⟨s, c, by rw [sampfordLoop]; simp only []; rw [if_pos hlen, hf]; exact hrec⟩
        · right; exact ⟨c, by rw [sampfordLoop]; simp only []; rw [if_pos hlen, hf]; exact hrec⟩
      | some id =>
        by_cases hid : id ≠ draw (u (pos + probs.length)) normProbs
        · left
          refine ⟨(poissonInternal u pos probs ++
              [draw (u (pos + probs.length)) normProbs]).insertionSort (· ≤ ·),
              pos + probs.length + 1, ?_⟩
          rw [sampfordLoop]
          simp only []
          rw [if_pos hlen, hf]
          simp only []
          rw [if_pos hid]
        · rcases ih (pos + probs.length + 1) with ⟨s, c, hrec⟩ | ⟨c, hrec⟩
          · left
            exact ⟨s, c, by
              rw [sampfordLoop]; simp only []; rw [if_pos hlen, hf]; simp only []
              rw [if_neg hid]; exact hrec⟩
          · right
            exact ⟨c, by
              rw [sampfordLoop]; simp only []; rw [if_pos hlen, hf]; simp only []
              rw [if_neg hid]; exact hrec⟩
    · rcases ih (pos + probs.length) with ⟨s, c, hrec⟩ | ⟨c, hrec⟩
      · left; exact ⟨s, c, by rw [sampfordLoop]; simp only []; rw [if_neg hlen]; exact hrec⟩
      · right; exact ⟨c, by rw [sampfordLoop]; simp only []; rw [if_neg hlen]; exact hrec⟩

theorem roundNat_zero : roundNat 0 = 0 := by norm_num [roundNat]

/-- Any Ok output of sampford is strictly ascending, duplicate-free, of length
round(sum of probabilities), with all indices below the population size. -/
theorem sampford_ok (u : ℕ → ℚ) (o : SampleOptions) (s : List ℕ) (c : ℕ)
    (h : sampford u o = (.ok s, c)) :
    List.Sorted (· < ·) s ∧ s.Nodup ∧ s.length = roundNat (sumQ o.probabilities) ∧
      ∀ x ∈ s, x < o.probabilities.length := by
  unfold sampford at h
  cases hval : designValidate o with
  | error e => rw [hval] at h; simp at h
  | ok a =>
    rw [hval] at h
    simp only [] at h
    by_cases hm0 : roundNat (sumQ o.probabilities) = 0
    · rw [if_pos hm0] at h
      simp only [Prod.mk.injEq, Except.ok.injEq] at h
      obtain ⟨rfl, -⟩ := h
      simp [hm0]
    · rw [if_neg hm0] at h
      by_cases hm1 : roundNat (sumQ o.probabilities) = 1
      · rw [if_pos hm1] at h
        simp only [Prod.mk.injEq, Except.ok.injEq] at h
        obtain ⟨rfl, -⟩ := h
        have hne : o.probabilities ≠ [] := by
          intro hnil
          rw [hnil] at hm1
          simp only [sumQ] at hm1
          rw [show (([] : List ℚ).foldl (· + ·) 0) = 0 from rfl] at hm1
          rw [roundNat_zero] at hm1
          exact absurd hm1 (by norm_num)
        refine ⟨by simp, by simp, by simp [hm1], ?_⟩
        intro x hx
        rw [List.mem_singleton.1 hx]
        exact draw_lt_length _ _ hne
      · rw [if_neg hm1] at h
        exact sampfordLoop_ok u o.probabilities
          (o.probabilities.map (· / sumQ o.probabilities)) _ _ (by omega) (by simp)
          _ _ _ _ h

/-- After successful validation, sampford either returns a sample or the
exhausted-retries error carrying the configured bound; no other outcome. -/
theorem sampford_shape (u : ℕ → ℚ) (o : SampleOptions)
    (hval : designValidate o = .ok ()) :
    (∃ s c, sampford u o = (.ok s, c)) ∨
      ∃ c, sampford u o = (.error (.maxIterations o.maxIterations), c) := by
  unfold sampford
  rw [hval]
  simp only []
  by_cases hm0 : roundNat (sumQ o.probabilities) = 0
  · rw [if_pos hm0]; left; exact ⟨[], 0, rfl⟩
  · rw [if_neg hm0]
    by_cases hm1 : roundNat (sumQ o.probabilities) = 1
    · rw [if_pos hm1]; left; exact ⟨_, _, rfl⟩
    · rw [if_neg hm1]
      exact sampfordLoop_shape u o.probabilities
        (o.probabilities.map (· / sumQ o.probabilities)) _ _ _ 0

theorem roundNat_le_of_le (x : ℚ) (n : ℕ) (hx : x ≤ n) : roundNat x ≤ n := by
  unfold roundNat
  have h1 : ⌊x + 1/2⌋ < (n : ℤ) + 1 := by
    apply Int.floor_lt.2
    push_cast
    linarith
  omega

theorem sumQ_le_length (l : List ℚ) (h : ∀ p ∈ l, p ≤ 1) : sumQ l ≤ l.length := by
  rw [sumQ_eq_sum]
  calc l.sum ≤ l.length • (1 : ℚ) := List.sum_le_card_nsmul l 1 h
    _ = l.length := by simp

/-- Any Ok output of pareto is duplicate-free and has length
round(sum of probabilities). -/
theorem pareto_ok (u : ℕ → ℚ) (o : SampleOptions) (s : List ℕ) (c : ℕ)
    (h : pareto u o = (.ok s, c)) :
    s.Nodup ∧ s.length = roundNat (sumQ o.probabilities) := by
  unfold pareto at h
  cases hval : designValidate o with
  | error e => rw [hval] at h; simp at h
  | ok a =>
    rw [hval] at h
    simp only [] at h
    simp only [Prod.mk.injEq, Except.ok.injEq] at h
    obtain ⟨rfl, -⟩ := h
    have hperm := List.perm_insertionSort
      (fun a b =>
        ((List.range o.probabilities.length).map fun i =>
            paretoKey o.eps (u i) (o.probabilities.getD i 0)).getD a .infinite
          |>.le
          (((List.range o.probabilities.length).map fun i =>
            paretoKey o.eps (u i) (o.probabilities.getD i 0)).getD b .infinite))
      (List.range o.probabilities.length)
    have hm_le : roundNat (sumQ o.probabilities) ≤ o.probabilities.length := by
      apply roundNat_le_of_le
      exact sumQ_le_length _ fun p hp => (designValidate_ok_probs o hval p hp).2
    constructor
    · exact (List.take_sublist _ _).nodup (hperm.nodup_iff.2 (List.nodup_range _))
    · rw [List.length_take, hperm.length_eq, List.length_range]
      omega

/-! Brewer pre-pass and main-loop invariants. -/

theorem brewerPrePass_inv (eps : ℚ) (N M : ℕ) :
    ∀ (l : List (ℕ × ℚ)) (indices sample : List ℕ) (nd : ℚ) (size : ℕ)
      (out : List ℕ × List ℕ × ℚ × ℕ),
      brewerPrePass eps l indices sample nd size = some out →
      (∀ x ∈ l, x.1 < N) →
      sample.Nodup → (∀ x ∈ sample, x ∉ indices) → indices.Nodup →
      (∀ x ∈ indices, x < N) → (∀ x ∈ sample, x < N) →
      sample.length + size = M →
      out.2.1.Nodup ∧ (∀ x ∈ out.2.1, x ∉ out.1) ∧ out.1.Nodup ∧
        (∀ x ∈ out.1, x < N) ∧ (∀ x ∈ out.2.1, x < N) ∧
        out.2.1.length + out.2.2.2 = M := by
  intro l
  induction l with
  | nil =>
    intro indices sample nd size out h hl hns hdisj hni hib hsb hlen
    rw [brewerPrePass.eq_def] at h
    simp only [Option.some.injEq] at h
    subst h
    exact ⟨hns, hdisj, hni, hib, hsb, hlen⟩
  | cons hd rest ih =>
    intro indices sample nd size out h hl hns hdisj hni hib hsb hlen
    obtain ⟨id, p⟩ := hd
    rw [brewerPrePass.eq_def] at h
    simp only [] at h
    by_cases h1 : p ≤ eps
    · rw [if_pos h1] at h
      by_cases h2 : id ∈ indices
      · rw [if_pos h2] at h
        refine ih _ _ _ _ _ h (fun x hx => hl x (List.mem_cons_of_mem _ hx)) hns
          ?_ (hni.erase _) ?_ hsb hlen
        · exact fun x hx hmem => hdisj x hx (List.mem_of_mem_erase hmem)
        · exact fun x hx => hib x (List.mem_of_mem_erase hx)
      · rw [if_neg h2] at h
        exact absurd h (by simp)
    · rw [if_neg h1] at h
      by_cases h2 : 1 - eps ≤ p
      · rw [if_pos h2] at h
        by_cases h3 : id ∈ indices
        · rw [if_pos h3] at h
          cases size with
          | zero => simp at h
          | succ size2 =>
            simp only [] at h
            refine ih _ _ _ _ _ h (fun x hx => hl x (List.mem_cons_of_mem _ hx)) ?_ ?_
              (hni.erase _) ?_ ?_ ?_
            · rw [List.nodup_append]
              refine ⟨hns, List.nodup_singleton _, ?_⟩
              intro x hx hmem
              rw [List.mem_singleton.1 hmem] at hx
              exact hdisj id hx h3
            · intro x hx
              rcases List.mem_append.1 hx with hx | hx
              · exact fun hmem => hdisj x hx (List.mem_of_mem_erase hmem)
              · rw [List.mem_singleton.1 hx]
                exact hni.not_mem_erase
            · exact fun x hx => hib x (List.mem_of_mem_erase hx)
            · intro x hx
              rcases List.mem_append.1 hx with hx | hx
              · exact hsb x hx
              · rw [List.mem_singleton.1 hx]
                exact hl (id, p) (by simp)
            · simp only [List.length_append, List.length_singleton]
              omega
        · rw [if_neg h3] at h
          exact absurd h (by simp)
      · rw [if_neg h2] at h
        exact ih _ _ _ _ _ h (fun x hx => hl x (List.mem_cons_of_mem _ hx)) hns hdisj hni
          hib hsb hlen

theorem brewerLoop_inv (u : ℕ → ℚ) (probs : List ℚ) :
    ∀ (r : ℕ) (nd : ℚ) (indices sample : List ℕ) (pos : ℕ)
      (sfin : List ℕ) (pfin : ℕ),
      brewerLoop u probs r nd indices sample pos = some (sfin, pfin) →
      sample.Nodup → (∀ x ∈ sample, x ∉ indices) → indices.Nodup →
      (∀ x ∈ indices, x < probs.length) → (∀ x ∈ sample, x < probs.length) →
      sfin.Nodup ∧ (∀ x ∈ sfin, x < probs.length) ∧
        sfin.length = sample.length + r := by
  intro r
  induction r with
  | zero =>
    intro nd indices sample pos sfin pfin h hns hdisj hni hib hsb
    rw [brewerLoop] at h
    simp only [Option.some.injEq, Prod.mk.injEq] at h
    obtain ⟨rfl, -⟩ := h
    exact ⟨hns, hsb, by simp⟩
  | succ r ih =>
    intro nd indices sample pos sfin pfin h hns hdisj hni hib hsb
    rw [brewerLoop] at h
    simp only [] at h
    split at h
    case isTrue ha =>
      have hres := ih _ _ _ _ _ _ h ?_ ?_ (hni.erase _) ?_ ?_
      · obtain ⟨r1, r2, r3⟩ := hres
        refine ⟨r1, r2, ?_⟩
        rw [r3]
        simp only [List.length_append, List.length_singleton]
        omega
      · rw [List.nodup_append]
        refine ⟨hns, List.nodup_singleton _, ?_⟩
        intro x hx hmem
        rw [List.mem_singleton.1 hmem] at hx
        exact hdisj _ hx ha
      · intro x hx
        rcases List.mem_append.1 hx with hx | hx
        · exact fun hmem => hdisj x hx (List.mem_of_mem_erase hmem)
        · rw [List.mem_singleton.1 hx]
          exact hni.not_mem_erase
      · exact fun x hx => hib x (List.mem_of_mem_erase hx)
      · intro x hx
        rcases List.mem_append.1 hx with hx | hx
        · exact hsb x hx
        · rw [List.mem_singleton.1 hx]
          exact hib _ ha
    case isFalse ha =>
      exact absurd h (by simp)

/-- Any Ok output of brewer is strictly ascending, duplicate-free, of length
round(sum of probabilities), with all indices below the population size. -/
theorem brewer_ok (u : ℕ → ℚ) (o : SampleOptions) (s : List ℕ) (c : ℕ)
    (h : brewer u o = (.ok s, c)) :
    List.Sorted (· < ·) s ∧ s.Nodup ∧ s.length = roundNat (sumQ o.probabilities) ∧
      ∀ x ∈ s, x < o.probabilities.length := by
  unfold brewer at h
  cases hval : designValidate o with
  | error e => rw [hval] at h; simp at h
  | ok a =>
    rw [hval] at h
    simp only [] at h
    cases hpre : brewerPrePass o.eps o.probabilities.enum
        (List.range o.probabilities.length) [] (sumQ o.probabilities)
        (roundNat (sumQ o.probabilities)) with
    | none => rw [hpre] at h; simp at h
    | some mid =>
      rw [hpre] at h
      obtain ⟨indices, sample0, nd, size⟩ := mid
      simp only [] at h
      have e1 : ∀ x ∈ o.probabilities.enum, x.1 < o.probabilities.length := by
        intro x hx
        obtain ⟨i, q⟩ := x
        rw [enum_eq_enumFrom] at hx
        have := List.mem_enumFrom hx
        simpa using this.2.1
      have hmid := brewerPrePass_inv o.eps o.probabilities.length
        (roundNat (sumQ o.probabilities)) _ _ _ _ _ _ hpre e1 List.nodup_nil
        (by simp) (List.nodup_range _) (fun x hx => by simpa using hx) (by simp)
        (by simp)
      obtain ⟨m1, m2, m3, m4, m5, m6⟩ := hmid
      cases hloop : brewerLoop u o.probabilities size nd indices sample0 0 with
      | none => rw [hloop] at h; simp at h
      | some fin =>
        rw [hloop] at h
        obtain ⟨sample, pos⟩ := fin
        simp only [Prod.mk.injEq, Except.ok.injEq] at h
        obtain ⟨rfl, -⟩ := h
        have hfin := brewerLoop_inv u o.probabilities size nd indices sample0 0
          sample pos hloop m1 m2 m3 m4 m5
        obtain ⟨f1, f2, f3⟩ := hfin
        have hperm := List.perm_insertionSort (· ≤ ·) sample
        have hnd := hperm.nodup_iff.2 f1
        have hsorted := List.sorted_insertionSort (· ≤ ·) sample
        refine ⟨hsorted.lt_of_le hnd, hnd, ?_, ?_⟩
        · rw [hperm.length_eq, f3]
          simp at m6
          omega
        · intro x hx
          exact f2 x (hperm.mem_iff.1 hx)

/-! One-hot draws, the estimate fold, the variance discrepancy, and
validation-before-randomness. -/

theorem drawGo_one_hot (rv : ℚ) (fb : ℕ) (h0 : 0 < rv) (h1 : rv ≤ 1) :
    ∀ (a i : ℕ) (rest : List ℚ),
      drawGo rv fb i 0 (List.replicate a 0 ++ 1 :: rest) = i + a := by
  intro a
  induction a with
  | zero =>
    intro i rest
    simp only [List.replicate, List.nil_append]
    rw [drawGo, if_pos (by linarith)]
    omega
  | succ a ih =>
    intro i rest
    simp only [List.replicate, List.cons_append]
    rw [drawGo, if_neg (by linarith)]
    have := ih (i + 1) rest
    rw [show ((0 : ℚ) + 0) = 0 from by norm_num]
    omega

/-- On a one-hot probability vector, draw returns the hot index for every
variate strictly between 0 and 1. -/
theorem draw_one_hot (rv : ℚ) (a b : ℕ) (h0 : 0 < rv) (h1 : rv < 1) :
    draw rv (List.replicate a 0 ++ 1 :: List.replicate b 0) = a := by
  unfold draw
  have := drawGo_one_hot rv
    ((List.replicate a (0 : ℚ) ++ 1 :: List.replicate b 0).length - 1) h0
    (le_of_lt h1) a 0 (List.replicate b 0)
  simpa using this

theorem estimate_eq (y p : List ℚ) (hl : y.length = p.length)
    (hp : ∀ q ∈ p, 0 ≤ q ∧ q ≤ 1) :
    estimate y p = .ok ((y.zip p).foldl (fun acc yp => acc + yp.1 / yp.2) 0) := by
  unfold estimate andE checkLengths checkProbabilities
  rw [if_pos hl, if_pos hp]

theorem variance_sub_syg (y p : List ℚ) (M : MatrixQ)
    (hval : varValidate y p M = .ok ()) :
    ∃ v w, variance y p M = .ok v ∧ sygVariance y p M = .ok w ∧
      v - w = (∑ i in Finset.range y.length,
          (y.getD i 0 / p.getD i 0)^2 * (1 - p.getD i 0)) +
        ∑ i in Finset.range y.length, ∑ j in Finset.Ico (i+1) y.length,
          ((y.getD i 0 / p.getD i 0)^2 + (y.getD j 0 / p.getD j 0)^2) *
            (1 - p.getD i 0 * p.getD j 0 / M.get i j) := by
  unfold variance sygVariance
  rw [hval]
  simp only []
  refine ⟨_, _, rfl, rfl, ?_⟩
  rw [sub_neg_eq_add, Finset.sum_add_distrib, add_assoc]
  congr 1
  rw [← Finset.sum_add_distrib]
  refine Finset.sum_congr rfl ?_
  intro i _
  rw [← Finset.sum_add_distrib]
  refine Finset.sum_congr rfl ?_
  intro j _
  ring

theorem validation_first (o : SampleOptions) (e : SamplingError) :
    (wrValidate o = .error e → ∀ (u : ℕ → ℚ) (n : ℕ),
      withReplacement u o n = (.error e, 0)) ∧
      (designValidate o = .error e → ∀ u : ℕ → ℚ,
        sampford u o = (.error e, 0) ∧ pareto u o = (.error e, 0) ∧
          brewer u o = (.error e, 0)) := by
  constructor
  · intro hv u n
    unfold withReplacement
    rw [hv]
  · intro hv u
    refine ⟨?_, ?_, ?_⟩
    · unfold sampford; rw [hv]
    · unfold pareto; rw [hv]
    · unfold brewer; rw [hv]

/-! Claim theorems. -/

/-- C1 (code bug evidence): on probabilities [3/4, 3/4, 1/2] (sum 2, target
size 2) and the given stream, the first attempt draws the Poisson sample [0]
of size 1 = m - 1 and the extra unit a = 1, which is absent from the Poisson
sample; the claim says such an attempt is accepted and the sample returned,
but the source condition find(id >= a).is_some_and(id != a) is false when a
exceeds every sampled id, so sampford rejects the attempt and, with
max_iterations 1, returns the exhausted-retries error instead. -/
theorem C1_sampford_rejects_absent_larger_extra_unit :
    poissonInternal (fun i => [1/2, 9/10, 9/10, 1/2].getD i 0) 0 [3/4, 3/4, 1/2] =
        [0] ∧
      draw ((fun i => [1/2, 9/10, 9/10, 1/2].getD i 0) 3)
          ([3/4, 3/4, 1/2].map (· / sumQ [3/4, 3/4, 1/2])) = 1 ∧
      (1 : ℕ) ∉ [0] ∧
      sampford (fun i => [1/2, 9/10, 9/10, 1/2].getD i 0) ⟨[3/4, 3/4, 1/2], 1/100, 1⟩ =
        (.error (.maxIterations 1), 4) := by
  refine ⟨?_, ?_, by simp, ?_⟩
  · norm_num [poissonInternal, poissonGo]
  · norm_num [draw, drawGo, sumQ]
  · norm_num [sampford, designValidate, andE, checkProbabilities, checkEps,
      checkSumInteger, sumQ, roundNat, abs_le]
    all_goals try simp
    all_goals try norm_num [sampfordLoop, poissonInternal, poissonGo, draw, drawGo,
      List.find?, sumQ]

/-- C2 (counterexample): with the valid options probabilities [1/2, 3/4, 3/4]
(sum 2) and the given stream, pareto returns Ok with the sample [2, 0], which
is not strictly ascending, against the claim that every design returns a
strictly ascending index sequence. -/
theorem C2_pareto_output_not_ascending :
    designValidate ⟨[1/2, 3/4, 3/4], 1/100, 5⟩ = .ok () ∧
      pareto (fun i => [1/3, 9/10, 1/10].getD i 0) ⟨[1/2, 3/4, 3/4], 1/100, 5⟩ =
        (.ok [2, 0], 3) ∧
      ¬ List.Sorted (· < ·) [2, 0] := by
  refine ⟨?_, ?_, by simp⟩
  · norm_num [designValidate, andE, checkProbabilities, checkEps, checkSumInteger,
      sumQ, roundNat, abs_le]
    all_goals try simp
    all_goals try norm_num
  · norm_num [pareto, designValidate, andE, checkProbabilities, checkEps,
      checkSumInteger, sumQ, roundNat, paretoKey, abs_le]
    all_goals try simp
    all_goals try norm_num [List.insertionSort, List.orderedInsert, List.range_succ,
      ParetoKey.le, sumQ]

/-- C2 (amended): every Ok output of sampford and brewer is strictly
ascending, duplicate-free, of length round(sum of probabilities), with all
indices below the population size; every Ok output of pareto is duplicate-free
of length round(sum of probabilities), but is ordered by the Pareto ranking
keys rather than by index. -/
theorem C2_amended_design_output_properties (u1 u2 u3 : ℕ → ℚ)
    (o1 o2 o3 : SampleOptions) (s1 s2 s3 : List ℕ) (c1 c2 c3 : ℕ) :
    (sampford u1 o1 = (.ok s1, c1) →
      List.Sorted (· < ·) s1 ∧ s1.Nodup ∧
        s1.length = roundNat (sumQ o1.probabilities) ∧
        ∀ x ∈ s1, x < o1.probabilities.length) ∧
    (brewer u2 o2 = (.ok s2, c2) →
      List.Sorted (· < ·) s2 ∧ s2.Nodup ∧
        s2.length = roundNat (sumQ o2.probabilities) ∧
        ∀ x ∈ s2, x < o2.probabilities.length) ∧
    (pareto u3 o3 = (.ok s3, c3) →
      s3.Nodup ∧ s3.length = roundNat (sumQ o3.probabilities)) :=
  ⟨sampford_ok u1 o1 s1 c1, brewer_ok u2 o2 s2 c2, pareto_ok u3 o3 s3 c3⟩

/-- C2 (witness): the amended theorem applied to concrete Ok runs of the three
designs. -/
theorem C2_amended_design_output_properties_witness :
    (List.Sorted (· < ·) [0] ∧ ([0] : List ℕ).Nodup ∧
      ([0] : List ℕ).length = roundNat (sumQ ([1/2, 1/2] : List ℚ)) ∧
      ∀ x ∈ ([0] : List ℕ), x < ([1/2, 1/2] : List ℚ).length) ∧
    (List.Sorted (· < ·) [0, 1] ∧ ([0, 1] : List ℕ).Nodup ∧
      ([0, 1] : List ℕ).length = roundNat (sumQ ([2/5, 3/5, 1/2, 1/2] : List ℚ)) ∧
      ∀ x ∈ ([0, 1] : List ℕ), x < ([2/5, 3/5, 1/2, 1/2] : List ℚ).length) ∧
    (([2, 0] : List ℕ).Nodup ∧
      ([2, 0] : List ℕ).length = roundNat (sumQ ([1/2, 3/4, 3/4] : List ℚ))) := by
  have h := C2_amended_design_output_properties
    (fun _ => (1/4 : ℚ)) (fun i => [1/20, 1/10].getD i 0)
    (fun i => [1/3, 9/10, 1/10].getD i 0)
    ⟨[1/2, 1/2], 1/100, 5⟩ ⟨[2/5, 3/5, 1/2, 1/2], 1/100, 5⟩ ⟨[1/2, 3/4, 3/4], 1/100, 5⟩
    [0] [0, 1] [2, 0] 1 2 3
  refine ⟨h.1 ?_, h.2.1 ?_, h.2.2 ?_⟩
  · norm_num [sampford, designValidate, andE, checkProbabilities, checkEps,
      checkSumInteger, sumQ, roundNat, abs_le]
    all_goals try simp
    all_goals try norm_num [draw, drawGo, sumQ]
  · norm_num [brewer, designValidate, andE, checkProbabilities, checkEps,
      checkSumInteger, sumQ, roundNat, abs_le, List.enum, List.enumFrom]
    all_goals try simp
    all_goals try norm_num [brewerPrePass, brewerLoop, draw, drawGo, List.range_succ,
      List.insertionSort, List.orderedInsert, sumQ]
    all_goals try simp
    all_goals try norm_num [brewerPrePass, brewerLoop, draw, drawGo, List.range_succ,
      List.insertionSort, List.orderedInsert, sumQ]
  · norm_num [pareto, designValidate, andE, checkProbabilities, checkEps,
      checkSumInteger, sumQ, roundNat, paretoKey, abs_le]
    all_goals try simp
    all_goals try norm_num [List.insertionSort, List.orderedInsert, List.range_succ,
      ParetoKey.le, sumQ]

/-- C3 (code bug evidence): on y = [1, 1], p = [1/2, 1/2] the source returns
9/2 because it centers the squared deviations at s1mp/del, the reciprocal of
the probability-weighted mean of the y/p; the formula of the claim, centered
at the probability-weighted mean itself, gives 0. -/
theorem C3_deville_variance_uses_inverted_center :
    devilleVariance [1, 1] [1/2, 1/2] = .ok (9/2) ∧
      devilleSpecFormula [1, 1] [1/2, 1/2] = 0 ∧ ((9 : ℚ)/2 ≠ 0) := by
  refine ⟨?_, ?_, by norm_num⟩
  · norm_num [devilleVariance, andE, checkLengths, checkProbabilities, sumQ]
  · norm_num [devilleSpecFormula, sumQ]

/-- C4 (counterexample): on the one-hot vector [0, 1] (hot index 1) the
variate 0, which lies in the half-open unit interval of the claim, makes draw
return index 0 rather than the hot index, because the first cumulative sum 0
already reaches the variate. -/
theorem C4_draw_zero_variate_returns_first_index :
    draw 0 [(0 : ℚ), 1] = 0 ∧ draw 0 [(0 : ℚ), 1] ≠ 1 := by
  constructor
  · norm_num [draw, drawGo]
  · norm_num [draw, drawGo]

/-- C4 (amended): for every one-hot probability vector and every uniform
variate strictly between 0 and 1, draw returns the hot index; the variate 0,
possible from a random source producing values in the half-open unit interval,
is excluded, since there draw returns the first index instead. -/
theorem C4_amended_draw_one_hot_positive_variate (rv : ℚ) (a b : ℕ)
    (h0 : 0 < rv) (h1 : rv < 1) :
    draw rv (List.replicate a 0 ++ 1 :: List.replicate b 0) = a :=
  draw_one_hot rv a b h0 h1

/-- C4 (witness): the amended theorem at the one-hot vector [0, 1, 0] with
variate 1/2. -/
theorem C4_amended_draw_one_hot_positive_variate_witness :
    (0 : ℚ) < 1/2 ∧ (1/2 : ℚ) < 1 ∧
      draw (1/2) (List.replicate 1 (0 : ℚ) ++ 1 :: List.replicate 1 0) = 1 :=
  ⟨by norm_num, by norm_num,
    C4_amended_draw_one_hot_positive_variate (1/2) 1 1 (by norm_num) (by norm_num)⟩

/-- C5 (counterexample): y = [1, 0], p = [1/2, 1/2] with the constant 2 by 2
second-order matrix of entries 1/2 satisfies the fixed-size consistency
identity for m = 2 with all entries positive, yet variance returns 2 and
syg_variance returns -2: the identity does not force the two estimators to
agree. -/
theorem C5_fixed_size_identity_does_not_force_agreement :
    (∀ i ∈ Finset.range 2,
      (∑ j in Finset.range 2,
        if j = i then 0 else (MatrixQ.mk 2 2 [1/2, 1/2, 1/2, 1/2]).get i j) =
          ((2 : ℚ) - 1) * [1/2, 1/2].getD i 0) ∧
    (∀ i ∈ Finset.range 2, ∀ j ∈ Finset.range 2,
      0 < (MatrixQ.mk 2 2 [1/2, 1/2, 1/2, 1/2]).get i j) ∧
    variance [1, 0] [1/2, 1/2] ⟨2, 2, [1/2, 1/2, 1/2, 1/2]⟩ = .ok 2 ∧
    sygVariance [1, 0] [1/2, 1/2] ⟨2, 2, [1/2, 1/2, 1/2, 1/2]⟩ = .ok (-2) ∧
    ((2 : ℚ) ≠ -2) := by
  refine ⟨?_, ?_, ?_, ?_, by norm_num⟩
  · intro i hi
    fin_cases hi <;>
      norm_num [MatrixQ.get, Finset.sum_range_succ]
  · intro i hi j hj
    fin_cases hi <;> fin_cases hj <;>
      norm_num [MatrixQ.get]
  · norm_num [variance, varValidate, andE, checkLengths, checkSizes,
      checkProbabilities, MatrixQ.get, Finset.sum_range_succ,
      Finset.sum_Ico_eq_sum_range]
  · norm_num [sygVariance, varValidate, andE, checkLengths, checkSizes,
      checkProbabilities, MatrixQ.get, Finset.sum_range_succ,
      Finset.sum_Ico_eq_sum_range]

/-- C5 (amended): on validated input the two estimators both return Ok, and
their difference equals the weighted sum of (y_i/p_i)^2 (1 - p_i) plus the
upper-triangle sum of ((y_i/p_i)^2 + (y_j/p_j)^2)(1 - p_i p_j / p_ij); the
fixed-size consistency identity alone does not make this difference vanish,
so the estimators need not agree pointwise. -/
theorem C5_amended_variance_syg_discrepancy (y p : List ℚ) (M : MatrixQ)
    (hval : varValidate y p M = .ok ()) :
    ∃ v w, variance y p M = .ok v ∧ sygVariance y p M = .ok w ∧
      v - w = (∑ i in Finset.range y.length,
          (y.getD i 0 / p.getD i 0)^2 * (1 - p.getD i 0)) +
        ∑ i in Finset.range y.length, ∑ j in Finset.Ico (i+1) y.length,
          ((y.getD i 0 / p.getD i 0)^2 + (y.getD j 0 / p.getD j 0)^2) *
            (1 - p.getD i 0 * p.getD j 0 / M.get i j) :=
  variance_sub_syg y p M hval

/-- C5 (witness): the amended theorem at the counterexample input. -/
theorem C5_amended_variance_syg_discrepancy_witness :
    ∃ v w, variance [1, 0] [1/2, 1/2] ⟨2, 2, [1/2, 1/2, 1/2, 1/2]⟩ = .ok v ∧
      sygVariance [1, 0] [1/2, 1/2] ⟨2, 2, [1/2, 1/2, 1/2, 1/2]⟩ = .ok w ∧
      v - w = (∑ i in Finset.range ([1, 0] : List ℚ).length,
          (([1, 0] : List ℚ).getD i 0 / ([1/2, 1/2] : List ℚ).getD i 0)^2 *
            (1 - ([1/2, 1/2] : List ℚ).getD i 0)) +
        ∑ i in Finset.range ([1, 0] : List ℚ).length,
          ∑ j in Finset.Ico (i+1) ([1, 0] : List ℚ).length,
            ((([1, 0] : List ℚ).getD i 0 / ([1/2, 1/2] : List ℚ).getD i 0)^2 +
              (([1, 0] : List ℚ).getD j 0 / ([1/2, 1/2] : List ℚ).getD j 0)^2) *
              (1 - ([1/2, 1/2] : List ℚ).getD i 0 * ([1/2, 1/2] : List ℚ).getD j 0 /
                (MatrixQ.mk 2 2 [1/2, 1/2, 1/2, 1/2]).get i j) :=
  C5_amended_variance_syg_discrepancy [1, 0] [1/2, 1/2] ⟨2, 2, [1/2, 1/2, 1/2, 1/2]⟩
    (by norm_num [varValidate, andE, checkLengths, checkSizes, checkProbabilities])

/-- C6 (counterexample): local_mean_variance hands the caller-supplied builder
to the spatial-index construction before any validation runs, so on the
length-mismatched input y = [1], p = [1, 1] with a failing builder the
function surfaces the builder failure instead of the first validation failure,
and the collaborator computation precedes validation. -/
theorem C6_local_mean_variance_builder_outcome_precedes_validation :
    checkLengths [1] [1, 1] = .error .lengthMismatch ∧
      localMeanVariance [1] [1, 1] (.error .treeFailure) = .error .treeFailure ∧
      SamplingError.treeFailure ≠ SamplingError.lengthMismatch := by
  refine ⟨?_, rfl, by simp⟩
  norm_num [checkLengths]

/-- C6 (amended): the randomized design entry points with_replacement,
sampford, pareto and brewer return the first validation failure with zero
random variates consumed on every invalid input; local_mean_variance is the
exception, building the spatial index before validation. -/
theorem C6_amended_designs_validate_before_randomness (o : SampleOptions)
    (e : SamplingError) :
    (wrValidate o = .error e → ∀ (u : ℕ → ℚ) (n : ℕ),
      withReplacement u o n = (.error e, 0)) ∧
      (designValidate o = .error e → ∀ u : ℕ → ℚ,
        sampford u o = (.error e, 0) ∧ pareto u o = (.error e, 0) ∧
          brewer u o = (.error e, 0)) :=
  validation_first o e

/-- C6 (witness): the amended theorem on the invalid probability vector [2]. -/
theorem C6_amended_designs_validate_before_randomness_witness :
    withReplacement (fun _ => (1/2 : ℚ)) ⟨[2], 1/100, 1⟩ 3 =
        (.error .probOutOfRange, 0) ∧
      sampford (fun _ => (1/2 : ℚ)) ⟨[2], 1/100, 1⟩ = (.error .probOutOfRange, 0) ∧
      pareto (fun _ => (1/2 : ℚ)) ⟨[2], 1/100, 1⟩ = (.error .probOutOfRange, 0) ∧
      brewer (fun _ => (1/2 : ℚ)) ⟨[2], 1/100, 1⟩ = (.error .probOutOfRange, 0) := by
  have h := C6_amended_designs_validate_before_randomness ⟨[2], 1/100, 1⟩ .probOutOfRange
  have hwr : wrValidate ⟨[2], 1/100, 1⟩ = .error .probOutOfRange := by
    norm_num [wrValidate, andE, checkProbabilities, checkSumOne, sumQ]
  have hdv : designValidate ⟨[2], 1/100, 1⟩ = .error .probOutOfRange := by
    norm_num [designValidate, andE, checkProbabilities, checkEps, checkSumInteger,
      sumQ, roundNat]
  have h2 := h.2 hdv (fun _ => (1/2 : ℚ))
  exact ⟨h.1 hwr (fun _ => (1/2 : ℚ)) 3, h2.1, h2.2.1, h2.2.2⟩

/-- C7 (counterexample): the options with probabilities [1/2, 1999/4000]
(sum 3999/4000, within eps = 1/1000 of 1) are valid, the single variate
3999/4000 lies in the half-open unit interval, yet with_replacement returns
the empty sample instead of one index, because the variate is at or above the
total probability mass and the merged pass exhausts the probabilities before
emitting it. -/
theorem C7_variate_at_or_above_total_mass_shortens_sample :
    (∀ p ∈ ([1/2, 1999/4000] : List ℚ), 0 ≤ p ∧ p ≤ 1) ∧
      |sumQ [1/2, 1999/4000] - 1| ≤ 1/1000 ∧
      (0 : ℚ) ≤ 3999/4000 ∧ (3999/4000 : ℚ) < 1 ∧
      withReplacement (fun _ => (3999/4000 : ℚ)) ⟨[1/2, 1999/4000], 1/1000, 1⟩ 1 =
        (.ok [], 1) ∧
      ([] : List ℕ).length ≠ 1 := by
  refine ⟨by norm_num, by norm_num [sumQ, abs_le], by norm_num, by norm_num, ?_, by simp⟩
  norm_num [withReplacement, wrValidate, andE, checkProbabilities, checkSumOne, sumQ,
    List.insertionSort, List.orderedInsert, mergePass, List.enum, List.enumFrom, abs_le]

/-- C7 (amended): for valid options and a stream of nonnegative variates,
with_replacement returns Ok a sample of at most n indices, all below the
population size; the sample has exactly n indices whenever every drawn variate
is strictly below the total probability mass, in particular whenever the
probabilities sum to exactly 1; and n = 0 yields the empty sample. -/
theorem C7_amended_with_replacement_count (u : ℕ → ℚ) (o : SampleOptions) (n : ℕ)
    (hp : ∀ p ∈ o.probabilities, 0 ≤ p ∧ p ≤ 1)
    (hsum : |sumQ o.probabilities - 1| ≤ o.eps)
    (hu : ∀ i < n, 0 ≤ u i) :
    ∃ s, (withReplacement u o n).1 = .ok s ∧ s.length ≤ n ∧
      (∀ x ∈ s, x < o.probabilities.length) ∧
      ((∀ i < n, u i < sumQ o.probabilities) → s.length = n) ∧
      (n = 0 → s = []) :=
  withReplacement_ok_props u o n hp hsum hu

/-- C7 (witness): the amended theorem at probabilities [1/2, 1/2] with two
variates below the total mass. -/
theorem C7_amended_with_replacement_count_witness :
    ∃ s, (withReplacement (fun i => [1/4, 3/4].getD i 0)
        ⟨[1/2, 1/2], 1/100, 1⟩ 2).1 = .ok s ∧ s.length ≤ 2 ∧
      (∀ x ∈ s, x < ([1/2, 1/2] : List ℚ).length) ∧
      ((∀ i < 2, (fun i => ([1/4, 3/4] : List ℚ).getD i 0) i <
        sumQ [1/2, 1/2]) → s.length = 2) ∧
      (2 = 0 → s = []) :=
  C7_amended_with_replacement_count (fun i => [1/4, 3/4].getD i 0)
    ⟨[1/2, 1/2], 1/100, 1⟩ 2 (by norm_num) (by norm_num [sumQ, abs_le])
    (by intro i hi; interval_cases i <;> norm_num)

/-- C8 (confirmed): on equal-length y-values and in-range probabilities,
estimate returns Ok of exactly the left-to-right fold of the sum of y/p over
the sample, with no other transformation. -/
theorem C8_estimate_is_direct_sum (y p : List ℚ) (hl : y.length = p.length)
    (hp : ∀ q ∈ p, 0 ≤ q ∧ q ≤ 1) :
    estimate y p = .ok ((y.zip p).foldl (fun acc yp => acc + yp.1 / yp.2) 0) :=
  estimate_eq y p hl hp

/-- C8 (witness): the theorem at the documented scenario
y = [0, 1/10, 2/10, 3/10, 4/10], p = [1/5] * 5, whose direct sum is 5. -/
theorem C8_estimate_is_direct_sum_witness :
    estimate [0, 1/10, 2/10, 3/10, 4/10] [1/5, 1/5, 1/5, 1/5, 1/5] =
        .ok ((([0, 1/10, 2/10, 3/10, 4/10] : List ℚ).zip
          ([1/5, 1/5, 1/5, 1/5, 1/5] : List ℚ)).foldl
            (fun acc yp => acc + yp.1 / yp.2) 0) ∧
      (([0, 1/10, 2/10, 3/10, 4/10] : List ℚ).zip
          ([1/5, 1/5, 1/5, 1/5, 1/5] : List ℚ)).foldl
            (fun acc yp => acc + yp.1 / yp.2) 0 = 5 :=
  ⟨C8_estimate_is_direct_sum [0, 1/10, 2/10, 3/10, 4/10] [1/5, 1/5, 1/5, 1/5, 1/5]
      (by norm_num) (by norm_num),
    by norm_num⟩

/-- C9 (confirmed): on valid options, sampford either returns Ok with a
sample or returns the exhausted-retries error carrying the configured
max_iterations bound; the model is a total function, so no run diverges, and
no other error is produced once validation has succeeded. -/
theorem C9_sampford_terminates_with_sample_or_bound_error (u : ℕ → ℚ)
    (o : SampleOptions)
    (hp : ∀ p ∈ o.probabilities, 0 ≤ p ∧ p ≤ 1)
    (he : 0 < o.eps ∧ o.eps < 1/2)
    (hsum : |sumQ o.probabilities - (roundNat (sumQ o.probabilities) : ℚ)| ≤ o.eps) :
    (∃ s c, sampford u o = (.ok s, c)) ∨
      ∃ c, sampford u o = (.error (.maxIterations o.maxIterations), c) :=
  sampford_shape u o (designValidate_eq_ok o hp he hsum)

/-- C9 (witness): the theorem at probabilities [1/2, 1/2] with a constant
stream. -/
theorem C9_sampford_terminates_with_sample_or_bound_error_witness :
    (∃ s c, sampford (fun _ => (1/4 : ℚ)) ⟨[1/2, 1/2], 1/100, 5⟩ = (.ok s, c)) ∨
      ∃ c, sampford (fun _ => (1/4 : ℚ)) ⟨[1/2, 1/2], 1/100, 5⟩ =
        (.error (.maxIterations (SampleOptions.mk [1/2, 1/2] (1/100) 5).maxIterations),
          c) :=
  C9_sampford_terminates_with_sample_or_bound_error (fun _ => (1/4 : ℚ))
    ⟨[1/2, 1/2], 1/100, 5⟩ (by norm_num) (by norm_num)
    (by norm_num [sumQ, roundNat, abs_le]
        all_goals try simp
        all_goals try norm_num)

/-- C10 (confirmed): every Ok output of with_replacement is non-decreasing in
unit index, because the merged pass emits bucket indices in ascending
cumulative-mass order; this holds for every option bundle and every stream. -/
theorem C10_with_replacement_output_nondecreasing (u : ℕ → ℚ) (o : SampleOptions)
    (n : ℕ) (s : List ℕ) (c : ℕ) (h : withReplacement u o n = (.ok s, c)) :
    List.Sorted (· ≤ ·) s :=
  withReplacement_ok_sorted u o n s c h

/-- C10 (witness): the theorem at a concrete Ok run returning [0, 1]. -/
theorem C10_with_replacement_output_nondecreasing_witness :
    withReplacement (fun i => [1/4, 3/4].getD i 0) ⟨[1/2, 1/2], 1/100, 1⟩ 2 =
        (.ok [0, 1], 2) ∧
      List.Sorted (· ≤ ·) [0, 1] := by
  have hrun : withReplacement (fun i => [1/4, 3/4].getD i 0)
      ⟨[1/2, 1/2], 1/100, 1⟩ 2 = (.ok [0, 1], 2) := by
    norm_num [withReplacement, wrValidate, andE, checkProbabilities, checkSumOne, sumQ,
      List.insertionSort, List.orderedInsert, mergePass, List.enum, List.enumFrom,
      abs_le]
  exact ⟨hrun,
    C10_with_replacement_output_nondecreasing (fun i => [1/4, 3/4].getD i 0)
      ⟨[1/2, 1/2], 1/100, 1⟩ 2 [0, 1] 2 hrun⟩
end Envisim
